import Mathlib

/-
  Verification of the sqdesk-cli interactive editing and completion subsystem.

  Shallow embedding of the Go sources:
    internal/completion/engine.go        (Engine, buildContext, extractWord, filterItems)
    internal/completion/types.go         (CompletionItem, Context, ItemKind)
    internal/completion/sources/keywords.go  (KeywordSource, HistorySource, SchemaSource)
    internal/completion/sources/ai.go    (AISource)
    internal/tui/components/editor.go    (Editor: history/undo/redo, search, comment
                                          toggling, goto-line)

  Modelling conventions:
  - Go strings are modelled as List Char (abbreviated Str).  Go indexes strings by
    byte; the model identifies bytes with characters, which is exact for ASCII
    input (all concrete inputs below are ASCII).
  - Go int values that the code keeps non-negative are modelled as Nat; values the
    code can drive negative are modelled as Int.
  - float64 scores are modelled as Int: every score constant and bonus in the code
    is a small integer, for which float64 arithmetic is exact.
  - The bubbletea textarea is modelled by its observable content: the text and the
    cursor as a linear offset.  getCursorIndex of the Go code recomputes exactly
    this offset, and setCursorIndex establishes it (clamped to the text length).
  - Go maps are modelled as association lists with first-match lookup; inserting
    prepends, which is observationally the Go map update.
  - The AI provider (an external network collaborator) is passed in as an explicit
    response oracle; a timeout or network failure is an oracle error value.
-/

namespace SqDesk

/-- Go strings, as lists of characters. -/
abbrev Str := List Char

/-- Shorthand turning a Lean string literal into the Str model. -/
def S (s : String) : Str := s.data

/-- Character class of the Go expression in strconv and strings TrimSpace:
unicode.IsSpace restricted to ASCII. -/
def goIsSpace (c : Char) : Bool :=
  c == ' ' || c == '\t' || c == '\n' || c == '\r' || c == '\x0b' || c == '\x0c'

/-- strings.ToLower, ASCII fragment. -/
def toLowerStr (s : Str) : Str := s.map Char.toLower

/-- strings.ToUpper, ASCII fragment. -/
def toUpperStr (s : Str) : Str := s.map Char.toUpper

/-- strings.TrimSpace: drop whitespace from both ends. -/
def trimSpace (s : Str) : Str :=
  ((s.dropWhile goIsSpace).reverse.dropWhile goIsSpace).reverse

/-- strings.HasPrefix s p. -/
def hasPfx (s p : Str) : Bool := p.isPrefixOf s

/-- strings.HasSuffix s p. -/
def hasSfx (s p : Str) : Bool := p.isSuffixOf s

/-- strings.Contains s sub. -/
def strContains (s sub : Str) : Bool :=
  (List.range (s.length + 1)).any fun i => sub.isPrefixOf (s.drop i)

/-- strings.Index as an option: the first index at which sub occurs in s. -/
def strIndexOpt (s sub : Str) : Option Nat :=
  (List.range (s.length + 1)).find? fun i => sub.isPrefixOf (s.drop i)

/-- strings.Split s by the newline character.  splitOn never returns an empty
list, matching Go, whose Split of the empty string is a one element slice. -/
def splitLines (s : Str) : List Str := s.splitOn '\n'

/-- strings.Join with a newline separator. -/
def joinLines (ls : List Str) : Str := List.intercalate [ '\n' ] ls

/- ===================== HistorySource (sources/keywords.go) ===================== -/

/-- HistorySource struct: most recent first list, bounded by maxSize. -/
structure HistorySource where
  history : List Str
  maxSize : Nat
deriving DecidableEq, Repr

/-- NewHistorySource: empty history, capacity 100. -/
def newHistorySource : HistorySource := ⟨[], 100⟩

/-- The removal loop of AddQuery: delete the first occurrence of q, if any. -/
def removeFirst (q : Str) : List Str → List Str
  | [] => []
  | x :: xs => if x == q then xs else x :: removeFirst q xs

/-- HistorySource.AddQuery: trim, ignore empty, remove an existing duplicate,
prepend, truncate to maxSize. -/
def HistorySource.addQuery (s : HistorySource) (query : Str) : HistorySource :=
  let query := trimSpace query
  if query == [] then s
  else
    let h := removeFirst query s.history
    let h := query :: h
    let h := if h.length > s.maxSize then h.take s.maxSize else h
    { s with history := h }

/- ===================== Completion data model (types.go) ===================== -/

/-- ItemKind enumeration of types.go. -/
inductive ItemKind where
  | KindKeyword | KindTable | KindColumn | KindFunction | KindSnippet | KindAI | KindHistory
deriving DecidableEq, Repr

/-- CompletionItem of types.go.  Score is float64 in Go; all values the program
produces are small integers, modelled exactly by Int. -/
structure CompletionItem where
  Label : Str
  InsertText : Str
  Kind : ItemKind
  Detail : Str
  Source : Str
  Score : Int
  FilterText : Str
deriving DecidableEq, Repr

/-- Context of types.go.  The Go field LinePrefix is called LinePfx here. -/
structure Context where
  Query : Str
  Cursor : Nat
  Word : Str
  WordStart : Nat
  Database : Str
  Tables : List Str
  LinePfx : Str
deriving DecidableEq, Repr

/- ===================== Engine helpers (engine.go) ===================== -/

/-- Word character test of extractWord in engine.go: unicode letter, digit, or
underscore (ASCII fragment; rune values are bytes of the query). -/
def isWordRune (c : Char) : Bool := c.isAlpha || c.isDigit || c == '_'

/-- The backwards scan of extractWord: largest start with all of
query[start..cursor) made of word runes. -/
def findWordStart (query : Str) : Nat → Nat
  | 0 => 0
  | start + 1 => if isWordRune (query.getD start ' ') then findWordStart query start else start + 1

/-- extractWord of engine.go: the maximal trailing word-rune run ending at the
cursor, together with its start offset. -/
def extractWord (query : Str) (cursor : Nat) : Str × Nat :=
  let cursor := min cursor query.length
  let start := findWordStart query cursor
  ((query.take cursor).drop start, start)

/-- strings.LastIndex of a single character, as an option. -/
def lastIndexCh (s : Str) (ch : Char) : Option Nat :=
  ((List.range s.length).filter fun i => s.getD i ' ' == ch).getLast?

/-- buildContext of engine.go.  Callers keep cursor within the query (Go would
panic on an out of range slice); the model clamps. -/
def buildContext (query : Str) (cursor : Nat) (database : Str) (tables : List Str) : Context :=
  let cursor := min cursor query.length
  let (word, wordStart) := extractWord query cursor
  let lineStart : Nat :=
    match lastIndexCh (query.take cursor) '\n' with
    | none => 0
    | some i => i + 1
  let linePfx := toUpperStr (trimSpace ((query.take cursor).drop lineStart))
  ⟨query, cursor, word, wordStart, database, tables, linePfx⟩

/-- One iteration of the filterItems loop in engine.go: keep a prefix match with
a +100 bonus, else a containment match with a +50 bonus, else drop.  The prefix
argument arrives already lowercased. -/
def filterOne (pfx : Str) (item : CompletionItem) : Option CompletionItem :=
  let filterText := if item.FilterText == [] then item.Label else item.FilterText
  let filterText := toLowerStr filterText
  if hasPfx filterText pfx then some { item with Score := item.Score + 100 }
  else if strContains filterText pfx then some { item with Score := item.Score + 50 }
  else none

/-- filterItems of engine.go (the appending loop is a filterMap). -/
def filterItems (items : List CompletionItem) (pfx : Str) : List CompletionItem :=
  items.filterMap (filterOne (toLowerStr pfx))

/- ===================== KeywordSource (sources/keywords.go) ===================== -/

/-- Keyword category start of the sqlKeywords map. -/
def kwStart : List Str :=
  [S "SELECT", S "INSERT", S "UPDATE", S "DELETE", S "CREATE", S "ALTER", S "DROP",
   S "TRUNCATE", S "GRANT", S "REVOKE", S "BEGIN", S "COMMIT", S "ROLLBACK",
   S "EXPLAIN", S "ANALYZE", S "SHOW", S "DESCRIBE", S "USE", S "WITH"]

/-- Keyword category select of the sqlKeywords map. -/
def kwSelect : List Str :=
  [S "DISTINCT", S "ALL", S "TOP", S "AS", S "FROM", S "WHERE", S "AND", S "OR", S "NOT",
   S "IN", S "BETWEEN", S "LIKE", S "IS", S "NULL", S "TRUE", S "FALSE",
   S "ORDER", S "BY", S "ASC", S "DESC", S "LIMIT", S "OFFSET",
   S "GROUP", S "HAVING", S "UNION", S "INTERSECT", S "EXCEPT",
   S "JOIN", S "INNER", S "LEFT", S "RIGHT", S "FULL", S "OUTER", S "CROSS", S "ON",
   S "CASE", S "WHEN", S "THEN", S "ELSE", S "END"]

/-- Keyword category functions of the sqlKeywords map. -/
def kwFunctions : List Str :=
  [S "COUNT", S "SUM", S "AVG", S "MIN", S "MAX", S "COALESCE", S "NULLIF",
   S "CONCAT", S "SUBSTRING", S "LENGTH", S "UPPER", S "LOWER", S "TRIM",
   S "NOW", S "CURRENT_DATE", S "CURRENT_TIME", S "CURRENT_TIMESTAMP",
   S "CAST", S "CONVERT", S "IFNULL", S "NVL"]

/-- Keyword category types of the sqlKeywords map. -/
def kwTypes : List Str :=
  [S "INT", S "INTEGER", S "BIGINT", S "SMALLINT", S "TINYINT",
   S "VARCHAR", S "CHAR", S "TEXT", S "NVARCHAR",
   S "DECIMAL", S "NUMERIC", S "FLOAT", S "DOUBLE", S "REAL",
   S "DATE", S "TIME", S "DATETIME", S "TIMESTAMP",
   S "BOOLEAN", S "BOOL", S "BLOB", S "JSON"]

/-- Lookup in the sqlKeywords map of keywords.go. -/
def sqlKeywordsMap (category : Str) : Option (List Str) :=
  if category == S "start" then some kwStart
  else if category == S "select" then some kwSelect
  else if category == S "functions" then some kwFunctions
  else if category == S "types" then some kwTypes
  else none

/-- getRelevantCategories of KeywordSource. -/
def getRelevantCategories (linePfx : Str) : List Str :=
  let linePfx := toUpperStr (trimSpace linePfx)
  if linePfx == [] then [S "start"]
  else if hasPfx linePfx (S "SELECT") || hasPfx linePfx (S "UPDATE") || hasPfx linePfx (S "DELETE") then
    [S "select"]
  else if hasPfx linePfx (S "CREATE") || hasPfx linePfx (S "ALTER") then
    [S "types"]
  else [S "select"]

/-- One keyword item of KeywordSource.Complete, with the prefix boost. -/
def keywordItem (word : Str) (kw : Str) : CompletionItem :=
  let score : Int := 40
  let score := if word != [] && hasPfx (toLowerStr kw) (toLowerStr word) then score + 30 else score
  ⟨kw, kw ++ [' '], ItemKind.KindKeyword, S "SQL Keyword", S "keywords", score, kw⟩

/-- One function item of KeywordSource.Complete. -/
def functionItem (fn : Str) : CompletionItem :=
  ⟨fn ++ S "()", fn ++ S "()", ItemKind.KindFunction, S "SQL Function", S "keywords", 35, fn⟩

/-- KeywordSource.Complete: category keywords for the line prefix, then all
functions. -/
def keywordComplete (ctx : Context) : List CompletionItem :=
  let categories := getRelevantCategories ctx.LinePfx
  let items := (categories.map fun category =>
    match sqlKeywordsMap category with
    | none => []
    | some kws => kws.map (keywordItem ctx.Word)).flatten
  items ++ kwFunctions.map functionItem

/- ===================== SchemaSource (sources/keywords.go) ===================== -/

/-- TableInfo of SchemaSource. -/
structure TableInfo where
  Name : Str
  Schema : Str
  Comment : Str
deriving DecidableEq, Repr

/-- ColumnInfo of SchemaSource.  The Go field Type is called ColType here, Type
being a Lean keyword. -/
structure ColumnInfo where
  Name : Str
  ColType : Str
  Nullable : Bool
  IsPrimary : Bool
  Comment : Str
deriving DecidableEq, Repr

/-- SchemaSource state: tables and a table to columns map (modelled as an
association list; Go map iteration order is unspecified and no claim below
depends on it). -/
structure SchemaSource where
  tables : List TableInfo
  columns : List (Str × List ColumnInfo)
deriving DecidableEq, Repr

/-- shouldSuggestTables of SchemaSource. -/
def shouldSuggestTables (linePfx : Str) : Bool :=
  let linePfx := toUpperStr linePfx
  let triggers := [S "FROM", S "JOIN", S "INTO", S "UPDATE", S "TABLE", S "TRUNCATE"]
  triggers.any (fun t => hasSfx linePfx t || hasSfx linePfx (t ++ [' '])) ||
    strContains linePfx (S "FROM")

/-- shouldSuggestColumns of SchemaSource. -/
def shouldSuggestColumns (linePfx : Str) : Bool :=
  let linePfx := toUpperStr linePfx
  let triggers := [S "SELECT", S "WHERE", S "AND", S "OR", S "SET", S "ORDER BY", S "GROUP BY", S "HAVING"]
  triggers.any (fun t => hasSfx linePfx t || hasSfx linePfx (t ++ [' '])) ||
    hasSfx linePfx (S ".")

/-- getTableItems of SchemaSource. -/
def getTableItems (s : SchemaSource) : List CompletionItem :=
  s.tables.map fun table =>
    let detail := if table.Schema != [] then table.Schema ++ [ '.' ] ++ table.Name else S "Table"
    let detail := if table.Comment != [] then detail ++ S " - " ++ table.Comment else detail
    ⟨table.Name, table.Name, ItemKind.KindTable, detail, S "schema", 90, table.Name⟩

/-- getColumnItems of SchemaSource. -/
def getColumnItems (s : SchemaSource) : List CompletionItem :=
  (s.columns.map fun (tableName, columns) =>
    columns.map fun col =>
      let detail := col.ColType
      let detail := if col.IsPrimary then detail ++ S " PRIMARY KEY" else detail
      let detail := if !col.Nullable then detail ++ S " NOT NULL" else detail
      ⟨col.Name, col.Name, ItemKind.KindColumn,
        tableName ++ [ '.' ] ++ col.Name ++ S " (" ++ detail ++ S ")",
        S "schema", 85, col.Name⟩).flatten

/-- SchemaSource.Complete: tables after table triggers, columns after column
triggers. -/
def schemaComplete (s : SchemaSource) (ctx : Context) : List CompletionItem :=
  let items := if shouldSuggestTables ctx.LinePfx then getTableItems s else []
  let items := if shouldSuggestColumns ctx.LinePfx then items ++ getColumnItems s else items
  items

/- ===================== HistorySource.Complete ===================== -/

/-- strings.ReplaceAll of two spaces by one, scanning left to right over
non-overlapping occurrences. -/
def squeezePair : Str → Str
  | ' ' :: ' ' :: rest => ' ' :: squeezePair rest
  | c :: rest => c :: squeezePair rest
  | [] => []

/-- The collapse loop of truncateHistory, run on bounded fuel; each Go iteration
strictly shortens the string, so fuel equal to the length always suffices. -/
def collapseLoop : Nat → Str → Str
  | 0, s => s
  | fuel + 1, s => if strContains s (S "  ") then collapseLoop fuel (squeezePair s) else s

/-- truncateHistory of sources/keywords.go. -/
def truncateHistory (s : Str) (max : Nat) : Str :=
  let s := s.map fun c => if c == '\n' || c == '\t' then ' ' else c
  let s := collapseLoop s.length s
  if s.length ≤ max then s else s.take (max - 3) ++ S "..."

/-- A history completion item with the recency score 60 - i. -/
def historyItem (q : Str) (i : Nat) : CompletionItem :=
  ⟨truncateHistory q 50, q, ItemKind.KindHistory, S "From history", S "history", 60 - (i : Int), q⟩

/-- The loop of HistorySource.Complete: i counts every history entry, matching
entries are collected, and the loop breaks once five items exist. -/
def historyLoop (pfx : Str) : Nat → List CompletionItem → List Str → List CompletionItem
  | _, acc, [] => acc
  | i, acc, q :: rest =>
    if pfx != [] && !hasPfx (toUpperStr q) pfx then historyLoop pfx (i + 1) acc rest
    else
      let acc := acc ++ [historyItem q i]
      if acc.length ≥ 5 then acc else historyLoop pfx (i + 1) acc rest

/-- HistorySource.Complete. -/
def historyComplete (hs : HistorySource) (ctx : Context) : List CompletionItem :=
  historyLoop (toUpperStr ctx.LinePfx) 0 [] hs.history

/- ===================== AISource (sources/ai.go) ===================== -/

/-- Error values of the Go error interface, by message. -/
abbrev GoErr := Str

/-- The external NL2SQL collaborator: a prompt to response oracle.  A timeout or
a transport failure is an error result. -/
abbrev Nl2SqlOracle := Str → Except GoErr Str

/-- AISource state.  The provider pointer is modelled by the hasProvider flag
together with the oracle passed to complete; the five minute cache expiry is
time dependent and outside the model (entries are treated as fresh). -/
structure AISource where
  hasProvider : Bool
  enabled : Bool
  cache : List (Str × List CompletionItem)
deriving DecidableEq, Repr

/-- getCacheKey of AISource. -/
def aiCacheKey (ctx : Context) : Str := ctx.LinePfx ++ [ '|' ] ++ ctx.Word

/-- Decimal digits of a natural number, for the numbering strip of
parseResponse. -/
def natDigits (n : Nat) : Str := (toString n).data

/-- strings.TrimPrefix. -/
def trimPfx (s p : Str) : Str := if hasPfx s p then s.drop p.length else s

/-- One line of parseResponse in ai.go: trim, strip a numbering or bullet
marker, drop empty lines, score decreasing with the line position. -/
def parseLine (i : Nat) (line : Str) : Option CompletionItem :=
  let line := trimSpace line
  if line == [] then none
  else
    let line := trimPfx line (natDigits (i + 1) ++ S ". ")
    let line := trimPfx line (S "- ")
    let line := trimPfx line (S "* ")
    let line := trimSpace line
    if line == [] then none
    else some ⟨(if line.length ≤ 40 then line else line.take 37 ++ S "..."), line,
      ItemKind.KindAI, S "AI Suggestion", S "ai", 20 + (5 - (i : Int)), line⟩

/-- Indexed traversal used by parseResponse. -/
def mapWithIndex {α β : Type} (f : Nat → α → β) : Nat → List α → List β
  | _, [] => []
  | i, x :: xs => f i x :: mapWithIndex f (i + 1) xs

/-- parseResponse of ai.go. -/
def parseResponse (response : Str) : List CompletionItem :=
  (mapWithIndex parseLine 0 (splitLines (trimSpace response))).filterMap id

/-- strings.Join with a comma separator, as in buildPrompt. -/
def joinComma (xs : List Str) : Str := List.intercalate (S ", ") xs

/-- buildPrompt of ai.go: the completion request embedding the query, cursor,
current word, line prefix and table names. -/
def buildAiPrompt (ctx : Context) : Str :=
  S "Given this SQL query context, suggest completions.\n\nCurrent query:\n" ++
  ctx.Query ++
  S "\n\nCursor is at position " ++ natDigits ctx.Cursor ++
  S ", current word being typed: \"" ++ ctx.Word ++
  S "\"\nContext: " ++ ctx.LinePfx ++
  S "\nAvailable tables: " ++ joinComma ctx.Tables ++
  S "\n\nProvide 3-5 SQL completion suggestions. Each line should be a single completion.\nOnly output the completions, one per line."

/-- Result of AISource.Complete: the Go (items, error) pair, whether the network
collaborator was invoked, and the updated source (its cache may have grown). -/
structure AIRes where
  result : Except GoErr (List CompletionItem)
  called : Bool
  src : AISource
deriving Repr

/-- AISource.Complete of ai.go: disabled or providerless sources answer
(nil, nil); a current word shorter than three bytes answers (nil, nil); then the
source cache, then the provider under its deadline. -/
def AISource.complete (nl2sql : Nl2SqlOracle) (s : AISource) (ctx : Context) : AIRes :=
  if !s.enabled || !s.hasProvider then ⟨.ok [], false, s⟩
  else if ctx.Word.length < 3 then ⟨.ok [], false, s⟩
  else
    match s.cache.lookup (aiCacheKey ctx) with
    | some items => ⟨.ok items, false, s⟩
    | none =>
      match nl2sql (buildAiPrompt ctx) with
      | .error e => ⟨.error e, true, s⟩
      | .ok response =>
        let items := parseResponse response
        ⟨.ok items, true, { s with cache := (aiCacheKey ctx, items) :: s.cache }⟩

/- ===================== Source capability and Engine (engine.go) ===================== -/

/-- The Source implementations registered by the program.  Each variant carries
its own state; names and priorities are the constants of the Go methods. -/
inductive GoSource where
  | keyword : GoSource
  | schema (s : SchemaSource) : GoSource
  | history (hs : HistorySource) : GoSource
  | ai (s : AISource) : GoSource
deriving DecidableEq, Repr

/-- Priority methods of the four sources: keywords 50, schema 100, history 70,
ai 30. -/
def GoSource.priority : GoSource → Int
  | .keyword => 50
  | .schema _ => 100
  | .history _ => 70
  | .ai _ => 30

/-- The Complete method of a source.  Keyword, schema and history sources never
fail; the AI source may fail (its internal cache mutation is private to the
pointed-to source and invisible to the engine slice, so it is dropped here). -/
def GoSource.complete (nl2sql : Nl2SqlOracle) (src : GoSource) (ctx : Context) :
    Except GoErr (List CompletionItem) :=
  match src with
  | .keyword => .ok (keywordComplete ctx)
  | .schema s => .ok (schemaComplete s ctx)
  | .history hs => .ok (historyComplete hs ctx)
  | .ai s => (AISource.complete nl2sql s ctx).result

/-- Engine state: the priority sorted source slice and the completion cache
(a Go map keyed by word, a pipe, and the line prefix). -/
structure Engine where
  sources : List GoSource
  cache : List (Str × List CompletionItem)

/-- NewEngine. -/
def newEngine : Engine := ⟨[], []⟩

/-- Insertion step of the deterministic model of sort.Slice by descending
priority.  Go sort.Slice promises only a comparator-respecting permutation (it
is documented as unstable); this model fixes one such permutation.  No theorem
below depends on the relative order of equal priorities of this function; the
stability question of C3 is treated against the relational contract
sortSliceRel further down. -/
def insertByPriority (s : GoSource) : List GoSource → List GoSource
  | [] => [s]
  | t :: ts => if t.priority ≥ s.priority then t :: insertByPriority s ts else s :: t :: ts

/-- Deterministic model of the sort in RegisterSource. -/
def sortByPriorityDesc (l : List GoSource) : List GoSource :=
  l.foldr insertByPriority []

/-- Engine.RegisterSource: append, then sort the slice by descending
priority. -/
def Engine.registerSource (e : Engine) (s : GoSource) : Engine :=
  { e with sources := sortByPriorityDesc (e.sources ++ [s]) }

/-- Insertion step of the deterministic model of the sort.Slice call on scores
in Engine.Complete (descending; same unstable-sort caveat, and no theorem below
depends on the order of equal scores). -/
def insertByScore (x : CompletionItem) : List CompletionItem → List CompletionItem
  | [] => [x]
  | y :: ys => if y.Score ≥ x.Score then y :: insertByScore x ys else x :: y :: ys

/-- Deterministic model of the score sort in Engine.Complete. -/
def sortByScoreDesc (l : List CompletionItem) : List CompletionItem :=
  l.foldr insertByScore []

/-- The engine cache key of Engine.Complete: word, pipe, line prefix. -/
def cacheKeyOf (word linePfx : Str) : Str := word ++ [ '|' ] ++ linePfx

/-- Engine.Complete of engine.go: build the context, consult the cache, fan out
to every source (a failing source contributes no items), merge, filter by the
current word, sort by descending score, cap at 20, store in the cache.  The
concurrent goroutines append in a scheduler-chosen order; the model merges in
slice order, and no theorem below depends on the merge order. -/
def Engine.complete (nl2sql : Nl2SqlOracle) (e : Engine) (query : Str) (cursor : Nat)
    (database : Str) (tables : List Str) : List CompletionItem × Engine :=
  let ctx := buildContext query cursor database tables
  let cacheKey := cacheKeyOf ctx.Word ctx.LinePfx
  match e.cache.lookup cacheKey with
  | some cached => (cached, e)
  | none =>
    let allItems := (e.sources.map fun s =>
      match s.complete nl2sql ctx with
      | .ok items => items
      | .error _ => []).flatten
    let allItems := if ctx.Word != [] then filterItems allItems ctx.Word else allItems
    let allItems := sortByScoreDesc allItems
    let allItems := if allItems.length > 20 then allItems.take 20 else allItems
    (allItems, { e with cache := (cacheKey, allItems) :: e.cache })

/-- Engine.ClearCache. -/
def Engine.clearCache (e : Engine) : Engine := { e with cache := [] }

/-- The operations the surrounding program performs on the engine. -/
inductive EngineOp where
  | register (s : GoSource)
  | completeCall (query : Str) (cursor : Nat) (database : Str) (tables : List Str)
  | clearCacheOp
deriving DecidableEq, Repr

/-- Run one engine operation. -/
def EngineOp.run (nl2sql : Nl2SqlOracle) (e : Engine) : EngineOp → Engine
  | .register s => e.registerSource s
  | .completeCall q c d t => (e.complete nl2sql q c d t).2
  | .clearCacheOp => e.clearCache

/-- Run a list of engine operations from left to right. -/
def runOps (nl2sql : Nl2SqlOracle) (e : Engine) (ops : List EngineOp) : Engine :=
  ops.foldl (fun e op => op.run nl2sql e) e

/- ===================== Editor (internal/tui/components/editor.go) ===================== -/

/-- EditorMode of editor.go. -/
inductive EditorMode where
  | ModeNormal | ModeInsert | ModeVisual
deriving DecidableEq, Repr

/-- EditorState: a history snapshot of text and linear cursor offset. -/
structure EditorState where
  Text : Str
  Cursor : Nat
deriving DecidableEq, Repr

/-- Editor component state.  The textarea is represented by its text and linear
cursor offset (getCursorIndex recomputes exactly this offset); rendering-only
fields are omitted.  offsetY and height can be driven through zero arithmetic
in Go and stay Int. -/
structure Editor where
  text : Str
  cursor : Nat
  suggestion : Str
  schema : List (Str × List Str)
  selectionStart : Int
  selectionEnd : Int
  hasSelection : Bool
  history : List EditorState
  historyIndex : Nat
  mode : EditorMode
  offsetY : Int
  height : Int
  showLineNumbers : Bool
  softWrap : Bool
  searchMode : Bool
  searchQuery : Str
  searchMatches : List Nat
  searchIndex : Nat
  replaceMode : Bool
  replaceQuery : Str
  gotoLineMode : Bool
  gotoLineInput : Str
deriving DecidableEq, Repr

/-- The editor right after NewEditor: empty buffer, Normal mode, and the single
initial snapshot that the constructor takes (NewEditor starts historyIndex at
-1 and immediately calls snapshot, which appends the empty state and sets the
index to 0). -/
def initEditor : Editor :=
  ⟨[], 0, [], [], 0, 0, false, [⟨[], 0⟩], 0, EditorMode.ModeNormal,
   0, 10, true, false, false, [], [], 0, false, [], false, []⟩

/-- setCursorIndex of editor.go: clamp the linear index to the text length (the
line and column round trip through the textarea reproduces the clamped
offset). -/
def Editor.setCursorIndex (e : Editor) (idx : Nat) : Editor :=
  { e with cursor := min idx e.text.length }

/-- snapshot of editor.go: skip when the current history entry holds the same
text, truncate the redo tail, append, and point at the new last entry. -/
def Editor.snapshot (e : Editor) : Editor :=
  let current : EditorState := ⟨e.text, e.cursor⟩
  if (e.history.get? e.historyIndex).any (fun last => last.Text == current.Text) then e
  else
    let hist := if e.historyIndex < e.history.length - 1 then e.history.take (e.historyIndex + 1) else e.history
    let hist := hist ++ [current]
    { e with history := hist, historyIndex := hist.length - 1 }

/-- undo of editor.go: step the history index back and restore that snapshot
(SetValue, then setCursorIndex with its clamp). -/
def Editor.undo (e : Editor) : Editor :=
  if 0 < e.historyIndex then
    let idx := e.historyIndex - 1
    let state := e.history.getD idx ⟨[], 0⟩
    ({ e with historyIndex := idx, text := state.Text }).setCursorIndex state.Cursor
  else e

/-- redo of editor.go: step the history index forward and restore that
snapshot. -/
def Editor.redo (e : Editor) : Editor :=
  if e.historyIndex < e.history.length - 1 then
    let idx := e.historyIndex + 1
    let state := e.history.getD idx ⟨[], 0⟩
    ({ e with historyIndex := idx, text := state.Text }).setCursorIndex state.Cursor
  else e

/-- Iterate an editor operation N times, for the undo and redo sequences of the
spec. -/
def iterEd (f : Editor → Editor) : Nat → Editor → Editor
  | 0, e => e
  | n + 1, e => iterEd f n (f e)

/-- Insert-mode input of one printable character: the textarea inserts it at the
cursor.  No snapshot is taken for a plain character. -/
def Editor.typeChar (e : Editor) (c : Char) : Editor :=
  { e with text := e.text.take e.cursor ++ [c] ++ e.text.drop e.cursor, cursor := e.cursor + 1 }

/-- Insert-mode input of the space key: updateInsert snapshots on KeySpace and
then lets the textarea insert the space. -/
def Editor.typeSpace (e : Editor) : Editor := e.snapshot.typeChar ' '

/-- The number of newlines before the cursor: the textarea Line() value. -/
def Editor.cursorLine (e : Editor) : Nat :=
  ((e.text.take e.cursor).filter (· == '\n')).length

/-- updateViewport of editor.go. -/
def Editor.updateViewport (e : Editor) : Editor :=
  let cursorLine : Int := e.cursorLine
  let viewportHeight := e.height - 2
  let offsetY :=
    if cursorLine < e.offsetY then cursorLine
    else if cursorLine ≥ e.offsetY + viewportHeight then cursorLine - viewportHeight + 1
    else e.offsetY
  { e with offsetY := if offsetY < 0 then 0 else offsetY }

/- ===================== Search (editor.go) ===================== -/

/-- The inner scan of refreshSearchMatches: strings.Index on the remaining
suffix, record the absolute offset, restart one byte after the match start.
The Go loop terminates because each round advances idx by at least one; fuel of
one more than the text length therefore always suffices and is what
refreshSearchMatches passes. -/
def searchLoop (text query : Str) : Nat → Nat → List Nat
  | 0, _ => []
  | fuel + 1, idx =>
    match strIndexOpt (text.drop idx) query with
    | none => []
    | some found => (idx + found) :: searchLoop text query fuel (idx + found + 1)

/-- refreshSearchMatches of editor.go. -/
def Editor.refreshSearchMatches (e : Editor) : Editor :=
  if e.searchQuery == [] then { e with searchMatches := [] }
  else
    let ms := searchLoop e.text e.searchQuery (e.text.length + 1) 0
    let e := { e with searchMatches := ms }
    if e.searchIndex ≥ ms.length then { e with searchIndex := 0 } else e

/-- findNext of editor.go: advance cyclically, move the cursor to the match,
adjust the viewport. -/
def Editor.findNext (e : Editor) : Editor :=
  if e.searchMatches.length == 0 then e
  else
    let i := (e.searchIndex + 1) % e.searchMatches.length
    (({ e with searchIndex := i }).setCursorIndex (e.searchMatches.getD i 0)).updateViewport

/- ===================== Comment toggling (editor.go) ===================== -/

/-- strings.TrimLeft by space and tab, as in toggleComment. -/
def trimLeftSpTab (s : Str) : Str := s.dropWhile fun c => c == ' ' || c == '\t'

/-- The per-line commented test of toggleComment: the line, leading blanks
stripped, starts with a comment marker. -/
def lineIsCommented (line : Str) : Bool :=
  let trimmed := trimLeftSpTab line
  hasPfx trimmed (S "-- ") || hasPfx trimmed (S "--")

/-- The removal arm of toggleComment: cut the first occurrence of the marker
with trailing space, else of the bare marker, else leave the line. -/
def removeCommentMarker (line : Str) : Str :=
  match strIndexOpt line (S "-- ") with
  | some idx => line.take idx ++ line.drop (idx + 3)
  | none =>
    match strIndexOpt line (S "--") with
    | some idx => line.take idx ++ line.drop (idx + 2)
    | none => line

/-- The allCommented scan of toggleComment over the lines from startLine to
endLine that exist. -/
def allCommentedRange (lines : List Str) (startLine endLine : Nat) : Bool :=
  ((List.range lines.length).filter fun i => startLine ≤ i ∧ i ≤ endLine).all
    fun i => lineIsCommented (lines.getD i [])

/-- The body of the rewrite loop of toggleComment: inside the range, remove the
marker when every ranged line was commented, else prepend the marker. -/
def toggleLine (allCommented : Bool) (startLine endLine : Nat) (i : Nat) (line : Str) : Str :=
  if startLine ≤ i ∧ i ≤ endLine then
    if allCommented then removeCommentMarker line else S "-- " ++ line
  else line

/-- The rewrite loop of toggleComment on the split lines, for a given line
range: remove markers when every line in range is commented, else prepend a
marker to every line in range. -/
def toggleCommentLines (lines : List Str) (startLine endLine : Nat) : List Str :=
  mapWithIndex (toggleLine (allCommentedRange lines startLine endLine) startLine endLine) 0 lines

/-- toggleComment of editor.go at the level of the buffer text, for the line
range the surrounding code computed from the cursor or the selection. -/
def toggleCommentText (text : Str) (startLine endLine : Nat) : Str :=
  joinLines (toggleCommentLines (splitLines text) startLine endLine)

/- ===================== Goto line (editor.go) ===================== -/

/-- cancelGotoLine of editor.go. -/
def Editor.cancelGotoLine (e : Editor) : Editor :=
  { e with gotoLineMode := false, gotoLineInput := [] }

/-- strconv.Atoi: optional sign, decimal digits, error on empty input, on a
stray character and on 64 bit overflow. -/
def goAtoi (s : Str) : Option Int :=
  if s == [] then none
  else
    let (neg, ds) :=
      match s with
      | '-' :: t => (true, t)
      | '+' :: t => (false, t)
      | _ => (false, s)
    if ds == [] then none
    else if ds.all Char.isDigit then
      let n : Nat := ds.foldl (fun acc c => acc * 10 + (c.toNat - '0'.toNat)) 0
      let v : Int := if neg then -(n : Int) else (n : Int)
      if v < -(2 ^ 63) || v > 2 ^ 63 - 1 then none else some v
    else none

/-- The index of the start of line lineNum (1 based), as the summing loop of
doGotoLine computes it. -/
def lineStartIdx (lines : List Str) (count : Nat) : Nat :=
  ((lines.take count).map fun l => l.length + 1).sum

/-- doGotoLine of editor.go: parse the collected input; a parse failure or a
value below one cancels with no other change; otherwise clamp to the last line,
move the cursor to the line start, fix the viewport, and leave goto mode. -/
def Editor.doGotoLine (e : Editor) : Editor :=
  match goAtoi e.gotoLineInput with
  | none => e.cancelGotoLine
  | some lineNum =>
    if lineNum < 1 then e.cancelGotoLine
    else
      let lines := splitLines e.text
      let lineNum := if lineNum > lines.length then (lines.length : Int) else lineNum
      let idx := lineStartIdx lines (lineNum - 1).toNat
      (((e.setCursorIndex idx).updateViewport).cancelGotoLine)

/-- updateGotoLineInput of editor.go: escape cancels, enter confirms, backspace
truncates, a digit key appends, anything else is ignored. -/
def Editor.updateGotoLineInput (e : Editor) (key : Str) : Editor :=
  if key == S "esc" then e.cancelGotoLine
  else if key == S "enter" then e.doGotoLine
  else if key == S "backspace" then
    if 0 < e.gotoLineInput.length then { e with gotoLineInput := e.gotoLineInput.dropLast } else e
  else
    match key with
    | [c] => if '0' ≤ c ∧ c ≤ '9' then { e with gotoLineInput := e.gotoLineInput ++ [c] } else e
    | _ => e

/- ===================== Suggestion accept (editor.go, updateInsert) ===================== -/

/-- strings.Fields: the maximal runs of non-whitespace. -/
def fields (s : Str) : List Str :=
  (s.foldr (fun c acc =>
    if goIsSpace c then [] :: acc
    else match acc with
      | [] => [[c]]
      | w :: ws => (c :: w) :: ws) []).filter fun w => w != []

/-- The tab branch of updateInsert: when a ghost suggestion exists and extends
the last whitespace-separated word of the buffer (case-insensitively), append
the remainder of the suggestion, lowercased when the typed word was all
lowercase, put the cursor at the end, clear the suggestion and snapshot. -/
def Editor.acceptTab (e : Editor) : Editor :=
  if e.suggestion == [] then e
  else
    let text := e.text
    match (fields text).getLast? with
    | none => e
    | some lastWord =>
      if hasPfx (toUpperStr e.suggestion) (toUpperStr lastWord) then
        let completion := e.suggestion.drop lastWord.length
        let completion := if toLowerStr lastWord == lastWord then toLowerStr completion else completion
        let e := { e with text := text ++ completion }
        let e := { e with cursor := text.length + completion.length }
        ({ e with suggestion := [] }).snapshot
      else e

/- ===================== The sort.Slice contract (for C3) ===================== -/

/-- The documented contract of the Go sort.Slice call in RegisterSource: the
result is a permutation of the input ordered by the comparator; sort.Slice is
explicitly NOT guaranteed to be stable, so any comparator-respecting
permutation is a possible outcome. -/
def sortSliceRel (l out : List GoSource) : Prop :=
  l.Perm out ∧ out.Pairwise fun a b => a.priority ≥ b.priority

/-- The possible source slices after a sequence of RegisterSource calls: each
call appends the new source and then produces some output admitted by the
sort.Slice contract. -/
inductive regTrace : List GoSource → List GoSource → Prop
  | nil : regTrace [] []
  | step {regs cur out : List GoSource} (s : GoSource) :
      regTrace regs cur → sortSliceRel (cur ++ [s]) out → regTrace (regs ++ [s]) out

/-- Relative order of the equal-priority sources is kept exactly when filtering
the output by each priority returns the registration order filtered the same
way; this is the standard characterization of a stable sort outcome. -/
def stableOutcome (regs out : List GoSource) : Prop :=
  ∀ p : Int, out.filter (fun s => s.priority == p) = regs.filter (fun s => s.priority == p)

/- ===================== Concrete instances used by the claims ===================== -/

/-- A schema source that knows the users table. -/
def schemaUsers : SchemaSource := ⟨[⟨S "users", [], []⟩], []⟩

/-- The engine of the end-to-end scenario: keyword source, schema source
knowing users, and an empty history source registered. -/
def engineC2 : Engine :=
  ((newEngine.registerSource GoSource.keyword).registerSource
    (GoSource.schema schemaUsers)).registerSource (GoSource.history newHistorySource)

/-- An oracle for runs in which no AI provider is configured or reachable. -/
def noProvider : Nl2SqlOracle := fun _ => .error (S "no provider")

/-- The editor of the end-to-end scenario right before the accept key: buffer
SELECT * FROM us, cursor at the end, ghost suggestion users. -/
def editorC2 : Editor :=
  { initEditor with text := S "SELECT * FROM us", cursor := 16, suggestion := S "users" }

/- ===================== C2 ===================== -/

/-- C2: with buffer SELECT * FROM us, cursor at the end, and the Schema source
knowing the users table, Engine.Complete returns exactly the one item with
label users and insert text users (score 190 after the prefix bonus), and
accepting the suggestion through the insert-mode tab branch of the editor
yields the buffer SELECT * FROM users. -/
theorem c2_complete_and_accept :
    (Engine.complete noProvider engineC2 (S "SELECT * FROM us") 16 (S "db") [S "users"]).1.map
        (fun i => (i.Label, i.InsertText)) = [(S "users", S "users")] ∧
    editorC2.acceptTab.text = S "SELECT * FROM users" := by
  constructor
  · decide
  · decide

/- ===================== C4 ===================== -/

/-- The keep test exactly as the claim words it: the FilterText field itself
starts with or contains the current word, case-insensitively. -/
def claimC4Keep (w : Str) (item : CompletionItem) : Bool :=
  hasPfx (toLowerStr item.FilterText) (toLowerStr w) ||
    strContains (toLowerStr item.FilterText) (toLowerStr w)

/-- An item whose FilterText is empty while its Label matches: the code keeps
it through the Label fallback, the claim as stated drops it. -/
def emptyFilterItem : CompletionItem :=
  ⟨S "users", S "users", ItemKind.KindTable, [], [], 90, []⟩

/-- C4 counterexample: with currentWord us, the item with empty FilterText and
label users fails both tests of the claim as stated, yet filterItems keeps it
(through the fallback to Label), so the stated if-and-only-if is false. -/
theorem c4_counterexample :
    claimC4Keep (S "us") emptyFilterItem = false ∧
      filterItems [emptyFilterItem] (S "us") ≠ [] := by
  decide

/-- The filter rule as amended: the effective filter text is FilterText, or
Label when FilterText is empty; keep on a case-insensitive prefix match with a
+100 bonus, else on a containment match with a +50 bonus, else drop. -/
def amendedFilterRule (w : Str) (item : CompletionItem) : Option CompletionItem :=
  let eff := toLowerStr (if item.FilterText == [] then item.Label else item.FilterText)
  let w := toLowerStr w
  if hasPfx eff w then some { item with Score := item.Score + 100 }
  else if strContains eff w then some { item with Score := item.Score + 50 }
  else none

/-- C4 amended: for every non-empty current word, the engine filter keeps
exactly the items whose effective filter text (FilterText, falling back to
Label when empty) case-insensitively starts with the word (+100) or contains
it (+50), dropping the rest. -/
theorem c4_filter_characterization (items : List CompletionItem) (w : Str) (hw : w ≠ []) :
    filterItems items w = items.filterMap (amendedFilterRule w) :=
  have _hword := hw
  rfl

/-- C4 amended witness at a concrete input. -/
theorem c4_filter_witness :
    S "us" ≠ ([] : Str) ∧
      filterItems [emptyFilterItem] (S "us") = [emptyFilterItem].filterMap (amendedFilterRule (S "us")) :=
  ⟨by decide, c4_filter_characterization [emptyFilterItem] (S "us") (by decide)⟩

/- ===================== C6 ===================== -/

/-- C6: for every context whose current word is shorter than three characters,
AISource.Complete answers no items and no error and never invokes the network
collaborator, whatever the source state and oracle. -/
theorem c6_short_word_no_ai (nl2sql : Nl2SqlOracle) (s : AISource) (ctx : Context)
    (h : ctx.Word.length < 3) :
    (AISource.complete nl2sql s ctx).result = .ok [] ∧
    (AISource.complete nl2sql s ctx).called = false := by
  rcases s with ⟨hp, en, cache⟩
  cases en <;> cases hp <;> simp [AISource.complete, h]

/-- C6 witness: a two character word on an enabled source with a provider. -/
theorem c6_short_word_witness :
    ((S "us").length < 3) ∧
      (AISource.complete noProvider ⟨true, true, []⟩
        (buildContext (S "SELECT * FROM us") 16 (S "db") [])).result = .ok [] ∧
      (AISource.complete noProvider ⟨true, true, []⟩
        (buildContext (S "SELECT * FROM us") 16 (S "db") [])).called = false :=
  ⟨by decide, c6_short_word_no_ai noProvider ⟨true, true, []⟩ _ (by decide)⟩

/- ===================== Supporting lemmas for C8 ===================== -/

theorem mapWithIndex_length {α β : Type} (f : Nat → α → β) :
    ∀ (k : Nat) (l : List α), (mapWithIndex f k l).length = l.length := by
  intro k l
  induction l generalizing k with
  | nil => rfl
  | cons x xs ih => simp [mapWithIndex, ih]

theorem mapWithIndex_getElem? {α β : Type} (f : Nat → α → β) :
    ∀ (l : List α) (k i : Nat), (mapWithIndex f k l)[i]? = (l[i]?).map (f (k + i)) := by
  intro l
  induction l with
  | nil => intro k i; simp [mapWithIndex]
  | cons x xs ih =>
    intro k i
    cases i with
    | zero => simp [mapWithIndex]
    | succ i =>
      simp only [mapWithIndex, List.getElem?_cons_succ]
      rw [ih (k + 1) i]
      have h : k + 1 + i = k + (i + 1) := by omega
      rw [h]

theorem mapWithIndex_getElem?_zero {α β : Type} (f : Nat → α → β) (l : List α) (i : Nat) :
    (mapWithIndex f 0 l)[i]? = (l[i]?).map (f i) := by
  rw [mapWithIndex_getElem?, Nat.zero_add]

/-- Pieces produced by splitOn never contain the separator. -/
theorem splitOn_sep_not_mem {α : Type} [DecidableEq α] (x : α) :
    ∀ (xs : List α) (l : List α), l ∈ xs.splitOn x → x ∉ l := by
  intro xs
  induction xs with
  | nil =>
    intro l hl
    rw [List.splitOn_nil, List.mem_singleton] at hl
    subst hl
    exact List.not_mem_nil x
  | cons a as ih =>
    intro l hl
    rw [List.splitOn, List.splitOnP_cons] at hl
    by_cases hax : (a == x) = true
    · rw [if_pos hax] at hl
      rcases List.mem_cons.mp hl with hl | hl
      · subst hl; exact List.not_mem_nil x
      · exact ih l hl
    · rw [if_neg hax] at hl
      rcases hsp : List.splitOnP (· == x) as with _ | ⟨h0, t0⟩
      · exact absurd hsp (List.splitOnP_ne_nil _ as)
      · rw [hsp] at hl
        have hmem0 : h0 ∈ as.splitOn x := by
          rw [List.splitOn, hsp]; exact List.mem_cons_self _ _
        simp only [List.modifyHead] at hl
        rcases List.mem_cons.mp hl with hl | hl
        · subst hl
          intro hmem
          rcases List.mem_cons.mp hmem with hx | hx
          · exact hax (by rw [hx]; exact beq_self_eq_true a)
          · exact ih h0 hmem0 hx
        · exact ih l (by rw [List.splitOn, hsp]; exact List.mem_cons_of_mem _ hl)

/-- The first index of a pattern in a string that begins with it is zero. -/
theorem strIndexOpt_self_pfx (sub l : Str) : strIndexOpt (sub ++ l) sub = some 0 := by
  unfold strIndexOpt
  rw [List.range_succ_eq_map]
  rw [List.find?_cons_of_pos]
  simp only [List.drop_zero]
  exact List.isPrefixOf_iff_prefix.mpr ⟨l, rfl⟩

/-- Removing the comment marker undoes the marker the add arm prepended. -/
theorem removeCommentMarker_prepend (l : Str) : removeCommentMarker (S "-- " ++ l) = l := by
  unfold removeCommentMarker
  rw [strIndexOpt_self_pfx (S "-- ") l]
  rfl

/-- A line starting with the added marker counts as commented. -/
theorem lineIsCommented_prepend (l : Str) : lineIsCommented (S "-- " ++ l) = true := by
  simp [lineIsCommented, trimLeftSpTab, S, hasPfx, List.isPrefixOf]

theorem allCommentedRange_eq_false (lines : List Str) (s e i : Nat)
    (h1 : s ≤ i) (h2 : i ≤ e) (h3 : i < lines.length)
    (h4 : lineIsCommented (lines.getD i []) = false) :
    allCommentedRange lines s e = false := by
  unfold allCommentedRange
  rw [List.all_eq_false]
  refine ⟨i, ?_, ?_⟩
  · rw [List.mem_filter]
    exact ⟨List.mem_range.mpr h3, by simp [h1, h2]⟩
  · rw [List.getD_eq_getElem?_getD] at h4
    simp [h4]

theorem allCommentedRange_eq_true (lines : List Str) (s e : Nat)
    (h : ∀ i, s ≤ i → i ≤ e → i < lines.length → lineIsCommented (lines.getD i []) = true) :
    allCommentedRange lines s e = true := by
  unfold allCommentedRange
  rw [List.all_eq_true]
  intro i hi
  rw [List.mem_filter] at hi
  obtain ⟨hr, hse⟩ := hi
  have hse2 := of_decide_eq_true hse
  exact h i hse2.1 hse2.2 (List.mem_range.mp hr)

/- ===================== C8 ===================== -/

/-- C8 counterexample: on the single already commented line of the buffer
consisting of two dashes and an x, with the range covering that line, the first
toggle removes the bare marker and the second re-adds the marker with a
trailing space, so applying toggleComment twice does not return the original
text. -/
theorem c8_counterexample :
    toggleCommentText (toggleCommentText (S "--x") 0 0) 0 0 ≠ S "--x" := by
  decide

/-- C8 amended: applying toggleComment twice over the same line range restores
the original text exactly whenever some line of the range is not already
commented, so that the first application takes the comment-adding arm (when
every line of the range is already commented, remove-then-add normalizes the
marker position and spacing instead). -/
theorem c8_toggle_involution (text : Str) (startLine endLine : Nat)
    (h : ∃ i, startLine ≤ i ∧ i ≤ endLine ∧ i < (splitLines text).length ∧
      lineIsCommented ((splitLines text).getD i []) = false) :
    toggleCommentText (toggleCommentText text startLine endLine) startLine endLine = text := by
  obtain ⟨i0, hi1, hi2, hi3, hi4⟩ := h
  have hfalse : allCommentedRange (splitLines text) startLine endLine = false :=
    allCommentedRange_eq_false _ _ _ i0 hi1 hi2 hi3 hi4
  have h1 : toggleCommentLines (splitLines text) startLine endLine =
      mapWithIndex (toggleLine false startLine endLine) 0 (splitLines text) := by
    unfold toggleCommentLines
    rw [hfalse]
  have hlen1 : (toggleCommentLines (splitLines text) startLine endLine).length =
      (splitLines text).length := by
    rw [h1, mapWithIndex_length]
  have hget1 : ∀ i : Nat, (toggleCommentLines (splitLines text) startLine endLine)[i]? =
      ((splitLines text)[i]?).map (toggleLine false startLine endLine i) := by
    intro i
    rw [h1, mapWithIndex_getElem?_zero]
  have hfalseArm : ∀ i line, toggleLine false startLine endLine i line =
      if startLine ≤ i ∧ i ≤ endLine then S "-- " ++ line else line := fun i line => rfl
  have htrueArm : ∀ i line, toggleLine true startLine endLine i line =
      if startLine ≤ i ∧ i ≤ endLine then removeCommentMarker line else line := fun i line => rfl
  have htgl : ∀ i orig, startLine ≤ i → i ≤ endLine →
      toggleLine false startLine endLine i orig = S "-- " ++ orig := by
    intro i orig hs he
    rw [hfalseArm]
    exact if_pos ⟨hs, he⟩
  have hnl : ∀ l ∈ toggleCommentLines (splitLines text) startLine endLine, '\n' ∉ l := by
    intro l hl
    obtain ⟨i, hi⟩ := List.mem_iff_getElem?.mp hl
    rw [hget1 i] at hi
    rcases horig : (splitLines text)[i]? with _ | orig
    · rw [horig] at hi; exact absurd hi (by simp)
    · rw [horig] at hi
      simp only [Option.map_some'] at hi
      have hmem : orig ∈ splitLines text := List.getElem?_mem horig
      have hnotin : '\n' ∉ orig := splitOn_sep_not_mem '\n' text orig hmem
      obtain rfl : toggleLine false startLine endLine i orig = l := Option.some_injective _ hi
      rw [hfalseArm]
      split
      · intro hcontra
        rcases List.mem_append.mp hcontra with hc | hc
        · revert hc; decide
        · exact hnotin hc
      · exact hnotin
  have hne : toggleCommentLines (splitLines text) startLine endLine ≠ [] := by
    intro hcontra
    have h0 := hlen1
    rw [hcontra] at h0
    exact List.splitOnP_ne_nil _ text (List.length_eq_zero.mp h0.symm)
  have hsplit : splitLines (joinLines (toggleCommentLines (splitLines text) startLine endLine)) =
      toggleCommentLines (splitLines text) startLine endLine :=
    List.splitOn_intercalate _ '\n' hnl hne
  have htrue : allCommentedRange (toggleCommentLines (splitLines text) startLine endLine)
      startLine endLine = true := by
    apply allCommentedRange_eq_true
    intro i hs he hlt
    rw [List.getD_eq_getElem?_getD, hget1 i]
    rw [hlen1] at hlt
    rw [List.getElem?_eq_getElem hlt]
    simp only [Option.map_some', Option.getD_some]
    rw [htgl i _ hs he]
    exact lineIsCommented_prepend _
  have h2 : toggleCommentLines (toggleCommentLines (splitLines text) startLine endLine)
      startLine endLine = splitLines text := by
    apply List.ext_getElem?
    intro i
    conv_lhs => rw [toggleCommentLines]
    rw [htrue, mapWithIndex_getElem?_zero, hget1 i]
    rcases horig : (splitLines text)[i]? with _ | orig
    · rfl
    · simp only [Option.map_some']
      rw [htrueArm, hfalseArm]
      by_cases hrange : startLine ≤ i ∧ i ≤ endLine
      · rw [if_pos hrange, if_pos hrange, removeCommentMarker_prepend]
      · rw [if_neg hrange, if_neg hrange]
  unfold toggleCommentText
  rw [hsplit, h2]
  exact List.intercalate_splitOn text '\n'

/-- C8 amended witness: toggling the uncommented one line buffer x twice is the
identity. -/
theorem c8_toggle_witness :
    toggleCommentText (toggleCommentText (S "x") 0 0) 0 0 = S "x" :=
  c8_toggle_involution (S "x") 0 0 ⟨0, by decide, by decide, by decide, by decide⟩

/- ===================== Supporting lemmas for C1 ===================== -/

theorem undo_history (e : Editor) : e.undo.history = e.history := by
  unfold Editor.undo Editor.setCursorIndex
  split <;> rfl

theorem undo_index (e : Editor) : e.undo.historyIndex = e.historyIndex - 1 := by
  unfold Editor.undo Editor.setCursorIndex
  split
  · rfl
  · omega

theorem undo_zero (e : Editor) (h : e.historyIndex = 0) : e.undo = e := by
  unfold Editor.undo
  rw [if_neg (by omega)]

theorem iterEd_undo_history : ∀ (n : Nat) (e : Editor), (iterEd Editor.undo n e).history = e.history := by
  intro n
  induction n with
  | zero => intro e; rfl
  | succ n ih => intro e; rw [iterEd, ih, undo_history]

theorem iterEd_undo_index : ∀ (n : Nat) (e : Editor),
    (iterEd Editor.undo n e).historyIndex = e.historyIndex - n := by
  intro n
  induction n with
  | zero => intro e; rfl
  | succ n ih =>
    intro e
    rw [iterEd, ih, undo_index]
    omega

theorem iterEd_undo_zero : ∀ (n : Nat) (e : Editor), e.historyIndex = 0 →
    iterEd Editor.undo n e = e := by
  intro n
  induction n with
  | zero => intro e _; rfl
  | succ n ih => intro e h; rw [iterEd, undo_zero e h, ih e h]

theorem redo_top (e : Editor) (h : e.history.length - 1 ≤ e.historyIndex) : e.redo = e := by
  unfold Editor.redo
  rw [if_neg (by omega)]

theorem iterEd_redo_top : ∀ (n : Nat) (e : Editor), e.history.length - 1 ≤ e.historyIndex →
    iterEd Editor.redo n e = e := by
  intro n
  induction n with
  | zero => intro e _; rfl
  | succ n ih => intro e h; rw [iterEd, redo_top e h, ih e h]

theorem redo_step (e : Editor) (h : e.historyIndex < e.history.length - 1) :
    e.redo.historyIndex = e.historyIndex + 1 ∧ e.redo.history = e.history ∧
    e.redo.text = (e.history.getD (e.historyIndex + 1) ⟨[], 0⟩).Text ∧
    e.redo.cursor = min ((e.history.getD (e.historyIndex + 1) ⟨[], 0⟩).Cursor)
      ((e.history.getD (e.historyIndex + 1) ⟨[], 0⟩).Text.length) := by
  unfold Editor.redo Editor.setCursorIndex
  rw [if_pos h]
  exact ⟨rfl, rfl, rfl, rfl⟩

theorem iterEd_redo_reach : ∀ (n : Nat) (e : Editor), 1 ≤ n →
    e.historyIndex < e.history.length - 1 → e.history.length - 1 ≤ e.historyIndex + n →
    (iterEd Editor.redo n e).text = (e.history.getD (e.history.length - 1) ⟨[], 0⟩).Text ∧
    (iterEd Editor.redo n e).cursor = min ((e.history.getD (e.history.length - 1) ⟨[], 0⟩).Cursor)
      ((e.history.getD (e.history.length - 1) ⟨[], 0⟩).Text.length) := by
  intro n
  induction n with
  | zero => intro e h1; omega
  | succ n ih =>
    intro e _ hlt hge
    rw [iterEd]
    rcases redo_step e hlt with ⟨hidx, hhist, htext, hcur⟩
    by_cases hcase : e.historyIndex + 1 < e.history.length - 1
    · have hn1 : 1 ≤ n := by omega
      have hres := ih e.redo hn1 (by rw [hidx, hhist]; exact hcase) (by rw [hidx, hhist]; omega)
      rw [hhist] at hres
      exact hres
    · have heq : e.historyIndex + 1 = e.history.length - 1 := by omega
      rw [iterEd_redo_top n e.redo (by rw [hidx, hhist]; omega)]
      rw [htext, hcur, heq]
      exact ⟨rfl, rfl⟩

/- ===================== C1 ===================== -/

/-- The editor after typing a, space, b in insert mode from a fresh editor: the
space key snapshots the text a, the trailing b is not yet snapshotted. -/
def editorTyped : Editor := ((initEditor.typeChar 'a').typeSpace).typeChar 'b'

/-- C1 counterexample: after typing a, space, b from a fresh editor, one undo
followed by one redo yields the text of the last snapshot (the single letter
a), not the pre-undo buffer a-space-b, because the trailing edit was never
snapshotted.  The claim fails as stated over all edit sequences. -/
theorem c1_counterexample :
    (iterEd Editor.redo 1 (iterEd Editor.undo 1 editorTyped)).text ≠ editorTyped.text := by
  decide

/-- C1 amended: undo N then redo N restores the exact pre-undo text and cursor
offset whenever the pre-undo state is the current snapshot: the history index
points at the last entry (no pending redo tail) and that entry equals the live
text and cursor, as holds after any edit sequence that ends in a snapshot. -/
theorem c1_undo_redo_roundtrip (e : Editor) (N : Nat)
    (hidx : e.historyIndex = e.history.length - 1)
    (hne : e.history ≠ [])
    (hcur : e.history.getD e.historyIndex ⟨[], 0⟩ = ⟨e.text, e.cursor⟩)
    (hcb : e.cursor ≤ e.text.length) :
    (iterEd Editor.redo N (iterEd Editor.undo N e)).text = e.text ∧
    (iterEd Editor.redo N (iterEd Editor.undo N e)).cursor = e.cursor := by
  have hlen : 1 ≤ e.history.length := by
    have h0 : e.history.length ≠ 0 := fun h0 => hne (List.length_eq_zero.mp h0)
    omega
  rcases Nat.eq_zero_or_pos N with hN | hN
  · subst hN
    exact ⟨rfl, rfl⟩
  by_cases htop : e.history.length - 1 = 0
  · have h0 : e.historyIndex = 0 := by omega
    rw [iterEd_undo_zero N e h0, iterEd_redo_top N e (by omega)]
    exact ⟨rfl, rfl⟩
  · have hh : (iterEd Editor.undo N e).history = e.history := iterEd_undo_history N e
    have hi : (iterEd Editor.undo N e).historyIndex = e.historyIndex - N :=
      iterEd_undo_index N e
    have hres := iterEd_redo_reach N (iterEd Editor.undo N e) hN
      (by rw [hh, hi, hidx]; omega) (by rw [hh, hi, hidx]; omega)
    rw [hh, ← hidx, hcur] at hres
    exact ⟨hres.1, by rw [hres.2]; exact Nat.min_eq_left hcb⟩

/-- C1 amended witness: snapshotting the typed editor first makes undo twice
redo twice restore text and cursor exactly. -/
theorem c1_roundtrip_witness :
    (iterEd Editor.redo 2 (iterEd Editor.undo 2 editorTyped.snapshot)).text = editorTyped.snapshot.text ∧
    (iterEd Editor.redo 2 (iterEd Editor.undo 2 editorTyped.snapshot)).cursor = editorTyped.snapshot.cursor :=
  c1_undo_redo_roundtrip editorTyped.snapshot 2 (by decide) (by decide) (by decide) (by decide)

/- ===================== Supporting lemmas for C7 ===================== -/

theorem searchLoop_lb (text query : Str) :
    ∀ (fuel idx m : Nat), m ∈ searchLoop text query fuel idx → idx ≤ m := by
  intro fuel
  induction fuel with
  | zero => intro idx m h; exact absurd h (List.not_mem_nil m)
  | succ fuel ih =>
    intro idx m h
    unfold searchLoop at h
    split at h
    · exact absurd h (List.not_mem_nil m)
    · rcases List.mem_cons.mp h with h | h
      · omega
      · have := ih _ m h
        omega

theorem searchLoop_pairwise (text query : Str) :
    ∀ (fuel idx : Nat), (searchLoop text query fuel idx).Pairwise (· < ·) := by
  intro fuel
  induction fuel with
  | zero => intro idx; exact List.Pairwise.nil
  | succ fuel ih =>
    intro idx
    unfold searchLoop
    split
    · exact List.Pairwise.nil
    · rw [List.pairwise_cons]
      refine ⟨fun m hm => ?_, ih _⟩
      have := searchLoop_lb text query fuel _ m hm
      omega

theorem refreshSearchMatches_sorted (e : Editor) :
    (e.refreshSearchMatches).searchMatches.Pairwise (· < ·) := by
  unfold Editor.refreshSearchMatches
  split
  · exact List.Pairwise.nil
  · dsimp only
    split
    · exact searchLoop_pairwise _ _ _ _
    · exact searchLoop_pairwise _ _ _ _

theorem findNext_wraps (e : Editor) (hne : e.searchMatches ≠ [])
    (hlast : e.searchIndex = e.searchMatches.length - 1) :
    e.findNext.searchIndex = 0 ∧
    e.findNext.cursor = min (e.searchMatches.getD 0 0) e.text.length := by
  have hlen : e.searchMatches.length ≠ 0 := fun h => hne (List.length_eq_zero.mp h)
  unfold Editor.findNext Editor.setCursorIndex Editor.updateViewport
  rw [if_neg (by simp [hlen])]
  rw [hlast, Nat.sub_add_cancel (by omega), Nat.mod_self]
  exact ⟨rfl, rfl⟩

/- ===================== C7 ===================== -/

/-- The editor searching for FROM in the two-FROM buffer. -/
def editorSearchFrom : Editor :=
  { initEditor with text := S "SELECT * FROM users FROM orders", searchQuery := S "FROM" }

/-- C7: searching FROM in SELECT * FROM users FROM orders yields exactly the
two match offsets 9 and 20 in ascending order; in general every recomputed
match list is strictly ascending; and findNext from the last match wraps the
match index to the first match, putting the cursor on its (clamped) offset. -/
theorem c7_search_matches :
    (editorSearchFrom.refreshSearchMatches).searchMatches = [9, 20] ∧
    (∀ e : Editor, (e.refreshSearchMatches).searchMatches.Pairwise (· < ·)) ∧
    (∀ e : Editor, e.searchMatches ≠ [] → e.searchIndex = e.searchMatches.length - 1 →
      e.findNext.searchIndex = 0 ∧
      e.findNext.cursor = min (e.searchMatches.getD 0 0) e.text.length) :=
  ⟨by decide, refreshSearchMatches_sorted, findNext_wraps⟩

/-- C7 witness: from the second (last) match of the concrete search, findNext
wraps to the first match at offset 9. -/
theorem c7_search_witness :
    ({ editorSearchFrom.refreshSearchMatches with searchIndex := 1 }).findNext.searchIndex = 0 ∧
    ({ editorSearchFrom.refreshSearchMatches with searchIndex := 1 }).findNext.cursor =
      min (({ editorSearchFrom.refreshSearchMatches with searchIndex := 1 }).searchMatches.getD 0 0)
        ({ editorSearchFrom.refreshSearchMatches with searchIndex := 1 }).text.length :=
  c7_search_matches.2.2 _ (by decide) (by decide)

/- ===================== Supporting lemmas for C9 ===================== -/

theorem joinLines_cons_cons (a b : Str) (rest : List Str) :
    joinLines (a :: b :: rest) = a ++ '\n' :: joinLines (b :: rest) := by
  simp [joinLines, List.intercalate, List.intersperse_cons_cons]

theorem lineStartIdx_cons (a : Str) (ls : List Str) (n : Nat) :
    lineStartIdx (a :: ls) (n + 1) = (a.length + 1) + lineStartIdx ls n := by
  simp [lineStartIdx, List.take_cons]

theorem lineStartIdx_last_le_join : ∀ (ls : List Str), ls ≠ [] →
    lineStartIdx ls (ls.length - 1) ≤ (joinLines ls).length := by
  intro ls
  induction ls with
  | nil => intro h; exact absurd rfl h
  | cons a rest ih =>
    intro _
    rcases rest with _ | ⟨b, rest2⟩
    · simp [lineStartIdx, joinLines, List.intercalate]
    · rw [joinLines_cons_cons]
      have hlen : (a :: b :: rest2).length - 1 = ((b :: rest2).length - 1) + 1 := by
        simp
      rw [hlen, lineStartIdx_cons]
      have hrec := ih (by simp)
      simp only [List.length_append, List.length_cons] at hrec ⊢
      omega

/-- doGotoLine always leaves goto mode with a cleared input. -/
theorem doGotoLine_clears (e : Editor) : e.doGotoLine.gotoLineInput = [] := by
  unfold Editor.doGotoLine Editor.cancelGotoLine
  rcases goAtoi e.gotoLineInput with _ | n
  · rfl
  · dsimp only
    split
    · rfl
    · rfl

/- ===================== C9 ===================== -/

/-- C9: the goto-line overlay accepts only digits (a gotoLineInput made of
digits stays made of digits under every key); confirming a parsed line number
greater than the line count moves the cursor to the start of the last line and
closes the overlay; and an input that does not parse (non-numeric or empty)
only cancels the overlay, leaving buffer, cursor and all other editor state
untouched. -/
theorem c9_goto_line :
    (∀ (e : Editor) (key : Str), (∀ c ∈ e.gotoLineInput, c.isDigit) →
      ∀ c ∈ (e.updateGotoLineInput key).gotoLineInput, c.isDigit = true) ∧
    (∀ (e : Editor) (n : Int), goAtoi e.gotoLineInput = some n → 1 ≤ n →
      ((splitLines e.text).length : Int) < n →
      e.doGotoLine.cursor = lineStartIdx (splitLines e.text) ((splitLines e.text).length - 1) ∧
      e.doGotoLine.gotoLineMode = false) ∧
    (∀ e : Editor, goAtoi e.gotoLineInput = none →
      e.doGotoLine = { e with gotoLineMode := false, gotoLineInput := [] }) := by
  refine ⟨?_, ?_, ?_⟩
  · intro e key hdig c hc
    unfold Editor.updateGotoLineInput at hc
    split at hc
    · exact absurd hc (List.not_mem_nil c)
    · split at hc
      · rw [doGotoLine_clears] at hc
        exact absurd hc (List.not_mem_nil c)
      · split at hc
        · split at hc
          · exact hdig c ((List.dropLast_sublist e.gotoLineInput).subset hc)
          · exact hdig c hc
        · split at hc
          · split at hc
            · rcases List.mem_append.mp hc with hmem | hmem
              · exact hdig c hmem
              · rcases List.mem_singleton.mp hmem with rfl
                rename_i hrange
                simp only [Char.isDigit, Bool.and_eq_true, decide_eq_true_eq]
                exact hrange
            · exact hdig c hc
          · exact hdig c hc
  · intro e n hparse hge hlt
    unfold Editor.doGotoLine
    rw [hparse]
    dsimp only
    rw [if_neg (by omega)]
    rw [if_pos (by exact_mod_cast hlt)]
    have hne : splitLines e.text ≠ [] := List.splitOnP_ne_nil _ e.text
    have htoNat : ((((splitLines e.text).length : Int)) - 1).toNat = (splitLines e.text).length - 1 := by
      omega
    rw [htoNat]
    constructor
    · show min (lineStartIdx (splitLines e.text) ((splitLines e.text).length - 1)) e.text.length =
        lineStartIdx (splitLines e.text) ((splitLines e.text).length - 1)
      apply Nat.min_eq_left
      have hj := lineStartIdx_last_le_join (splitLines e.text) hne
      have ht : joinLines (splitLines e.text) = e.text := List.intercalate_splitOn e.text '\n'
      rw [ht] at hj
      exact hj
    · rfl
  · intro e hparse
    unfold Editor.doGotoLine
    rw [hparse]
    rfl

/-- C9 witness: out-of-range input 9 on a two line buffer jumps to the start of
the last line, and the empty input cancels with no other change. -/
theorem c9_goto_line_witness :
    (({ initEditor with text := S "ab\ncd", gotoLineMode := true, gotoLineInput := S "9" }).doGotoLine.cursor =
      lineStartIdx (splitLines (S "ab\ncd")) 1 ∧
     ({ initEditor with text := S "ab\ncd", gotoLineMode := true, gotoLineInput := S "9" }).doGotoLine.gotoLineMode = false) ∧
    ({ initEditor with text := S "ab\ncd", gotoLineMode := true }).doGotoLine =
      { ({ initEditor with text := S "ab\ncd", gotoLineMode := true } : Editor) with
        gotoLineMode := false, gotoLineInput := [] } :=
  ⟨c9_goto_line.2.1 _ 9 (by decide) (by decide) (by decide),
   c9_goto_line.2.2 _ (by decide)⟩

/- ===================== Supporting lemmas for C10 ===================== -/

/-- On a cache hit Engine.Complete returns the cached list and leaves the
engine untouched. -/
theorem complete_cache_hit (nl2sql : Nl2SqlOracle) (e : Engine) (q : Str) (c : Nat)
    (db : Str) (tb : List Str) (v : List CompletionItem)
    (hv : e.cache.lookup
      (cacheKeyOf (buildContext q c db tb).Word (buildContext q c db tb).LinePfx) = some v) :
    Engine.complete nl2sql e q c db tb = (v, e) := by
  unfold Engine.complete
  dsimp only
  rw [hv]

theorem completeCall_preserves_cache (nl2sql : Nl2SqlOracle) (e : Engine) (q : Str) (c : Nat)
    (db : Str) (tb : List Str) (k : Str) (v : List CompletionItem)
    (hv : e.cache.lookup k = some v) :
    ((Engine.complete nl2sql e q c db tb).2).cache.lookup k = some v := by
  unfold Engine.complete
  dsimp only
  rcases hkey : e.cache.lookup
      (cacheKeyOf (buildContext q c db tb).Word (buildContext q c db tb).LinePfx) with _ | v2
  · dsimp only
    have hkne : (k == cacheKeyOf (buildContext q c db tb).Word (buildContext q c db tb).LinePfx) = false := by
      rcases hbe : k == cacheKeyOf (buildContext q c db tb).Word (buildContext q c db tb).LinePfx
      · rfl
      · have hk := eq_of_beq hbe
        rw [hk, hkey] at hv
        exact absurd hv (by simp)
    simp only [List.lookup, hkne]
    exact hv
  · exact hv

theorem runOps_preserves_cache (nl2sql : Nl2SqlOracle) :
    ∀ (ops : List EngineOp) (e : Engine) (k : Str) (v : List CompletionItem),
    (∀ op ∈ ops, op ≠ EngineOp.clearCacheOp) → e.cache.lookup k = some v →
    (runOps nl2sql e ops).cache.lookup k = some v := by
  intro ops
  induction ops with
  | nil => intro e k v _ hv; exact hv
  | cons op rest ih =>
    intro e k v hops hv
    unfold runOps
    rw [List.foldl_cons]
    have hstep : (op.run nl2sql e).cache.lookup k = some v := by
      rcases op with s | ⟨q, c, db, tb⟩ | _
      · exact hv
      · exact completeCall_preserves_cache nl2sql e q c db tb k v hv
      · exact absurd rfl (hops EngineOp.clearCacheOp (List.mem_cons_self _ _))
    exact ih (op.run nl2sql e) k v (fun o ho => hops o (List.mem_cons_of_mem _ ho)) hstep

/- ===================== C10 ===================== -/

/-- C10: once the engine cache holds a list for a (word, linePrefix) pair,
every later Complete call whose context reduces to that pair returns exactly
the cached list, whatever the query text, cursor, database, tables argument or
registered sources, and the entry survives any sequence of register and
complete operations that does not include ClearCache. -/
theorem c10_cache_noninterference (nl2sql : Nl2SqlOracle) (e : Engine) (ops : List EngineOp)
    (w lp : Str) (v : List CompletionItem)
    (hv : e.cache.lookup (cacheKeyOf w lp) = some v)
    (hops : ∀ op ∈ ops, op ≠ EngineOp.clearCacheOp) :
    (runOps nl2sql e ops).cache.lookup (cacheKeyOf w lp) = some v ∧
    ∀ (q : Str) (c : Nat) (db : Str) (tb : List Str),
      (buildContext q c db tb).Word = w → (buildContext q c db tb).LinePfx = lp →
      (Engine.complete nl2sql (runOps nl2sql e ops) q c db tb).1 = v := by
  have hpres := runOps_preserves_cache nl2sql ops e _ v hops hv
  refine ⟨hpres, ?_⟩
  intro q c db tb hw hl
  rw [complete_cache_hit nl2sql _ q c db tb v (by rw [hw, hl]; exact hpres)]

/-- An engine whose cache already holds an entry for the pair (us, US). -/
def engineCached : Engine := ⟨[], [(cacheKeyOf (S "us") (S "US"), [emptyFilterItem])]⟩

/-- C10 witness: after registering a further source, a Complete call with a
different query layout, database and tables but the same (us, US) pair still
returns the cached list. -/
theorem c10_cache_witness :
    (runOps noProvider engineCached [EngineOp.register GoSource.keyword]).cache.lookup
        (cacheKeyOf (S "us") (S "US")) = some [emptyFilterItem] ∧
    (Engine.complete noProvider (runOps noProvider engineCached [EngineOp.register GoSource.keyword])
        (S "SELECT\nus") 9 (S "otherdb") [S "tbl"]).1 = [emptyFilterItem] :=
  have h := c10_cache_noninterference noProvider engineCached
    [EngineOp.register GoSource.keyword] (S "us") (S "US") [emptyFilterItem]
    (by decide) (by decide)
  ⟨h.1, h.2 (S "SELECT\nus") 9 (S "otherdb") [S "tbl"] (by decide) (by decide)⟩

/- ===================== C3 ===================== -/

/-- Complete never touches the source slice (it reads it under the lock and
sorts a separate item list). -/
theorem complete_preserves_sources (nl2sql : Nl2SqlOracle) (e : Engine) (q : Str) (c : Nat)
    (db : Str) (tb : List Str) :
    ((Engine.complete nl2sql e q c db tb).2).sources = e.sources := by
  unfold Engine.complete
  dsimp only
  rcases hkey : e.cache.lookup
      (cacheKeyOf (buildContext q c db tb).Word (buildContext q c db tb).LinePfx) with _ | v
  · rfl
  · rfl

/-- Two schema sources with different tables: both have priority 100. -/
def schemaSrcA : GoSource := GoSource.schema ⟨[⟨S "a", [], []⟩], []⟩

/-- The second equal-priority schema source. -/
def schemaSrcB : GoSource := GoSource.schema ⟨[⟨S "b", [], []⟩], []⟩

/-- C3 counterexample: registering the two equal-priority schema sources A then
B, the contract of the sort.Slice call in RegisterSource (which Go documents as
NOT stable) admits the final slice [B, A], in which the two equal-priority
sources are NOT in registration order; so the claimed stability is not a
property of the code. -/
theorem c3_counterexample :
    regTrace [schemaSrcA, schemaSrcB] [schemaSrcB, schemaSrcA] ∧
    ¬ stableOutcome [schemaSrcA, schemaSrcB] [schemaSrcB, schemaSrcA] := by
  constructor
  · have h1 : regTrace [schemaSrcA] [schemaSrcA] :=
      regTrace.step schemaSrcA regTrace.nil ⟨by decide, by decide⟩
    exact regTrace.step schemaSrcB h1 ⟨by decide, by decide⟩
  · intro h
    have h100 := h 100
    revert h100
    decide

/-- C3 amended: after any sequence of RegisterSource calls, every source slice
the sort.Slice contract admits is a permutation of the registered sources
ordered by descending priority, and the slice is re-sorted only at
registration: Complete leaves it unchanged.  The relative order of
equal-priority sources is not guaranteed (the sort is not stable). -/
theorem c3_register_sorted (regs out : List GoSource) (h : regTrace regs out) :
    regs.Perm out ∧ out.Pairwise (fun a b => a.priority ≥ b.priority) ∧
    ∀ (nl2sql : Nl2SqlOracle) (e : Engine) (q : Str) (c : Nat) (db : Str) (tb : List Str),
      ((Engine.complete nl2sql e q c db tb).2).sources = e.sources := by
  induction h with
  | nil => exact ⟨List.Perm.refl [], List.Pairwise.nil, complete_preserves_sources⟩
  | step s h1 h2 ih =>
    refine ⟨?_, h2.2, complete_preserves_sources⟩
    exact ((ih.1.append (List.Perm.refl [s])).trans h2.1)

/-- C3 amended witness at the one-element trace that registers a single schema
source. -/
theorem c3_register_witness :
    [schemaSrcA].Perm [schemaSrcA] ∧
    List.Pairwise (fun a b => a.priority ≥ b.priority) [schemaSrcA] ∧
    ∀ (nl2sql : Nl2SqlOracle) (e : Engine) (q : Str) (c : Nat) (db : Str) (tb : List Str),
      ((Engine.complete nl2sql e q c db tb).2).sources = e.sources :=
  c3_register_sorted [schemaSrcA] [schemaSrcA]
    (regTrace.step schemaSrcA regTrace.nil ⟨by decide, by decide⟩)

/- ===================== Supporting lemmas for C5 ===================== -/

/-- Keep-first deduplication, used to state the most-recent-first shape of the
history list. -/
def dedupFirst : List Str → List Str
  | [] => []
  | q :: l => q :: (dedupFirst l).filter (fun x => x != q)

/-- The effective additions of an AddQuery call sequence: trimmed, with empty
results dropped. -/
def effAdds (qs : List Str) : List Str :=
  (qs.map trimSpace).filter (fun q => q != [])

/-- One effective addition, pushed most-recent-first. -/
def pushEff (r : List Str) (q : Str) : List Str :=
  if trimSpace q == [] then r else trimSpace q :: r

theorem dedupFirst_nodup : ∀ l : List Str, (dedupFirst l).Nodup := by
  intro l
  induction l with
  | nil => exact List.nodup_nil
  | cons q l ih =>
    rw [dedupFirst, List.nodup_cons]
    refine ⟨fun hmem => ?_, ih.filter _⟩
    have := List.of_mem_filter hmem
    simp at this

theorem filter_beq_len_le_one (a : Str) : ∀ l : List Str, l.Nodup →
    (l.filter (fun x => x == a)).length ≤ 1 := by
  intro l
  induction l with
  | nil => intro _; simp
  | cons x xs ih =>
    intro hnd
    rw [List.nodup_cons] at hnd
    rw [List.filter_cons]
    rcases hxa : (x == a)
    · simpa using ih hnd.2
    · have hx : x = a := eq_of_beq hxa
      have hfe : xs.filter (fun y => y == a) = [] := by
        rw [List.filter_eq_nil_iff]
        intro b hb
        intro hba
        have hba2 : b = a := eq_of_beq hba
        rw [← hx] at hba2
        rw [hba2] at hb
        exact hnd.1 hb
      simp [hfe]

theorem removeFirst_eq_filter : ∀ (l : List Str) (q : Str), l.Nodup →
    removeFirst q l = l.filter (fun x => x != q) := by
  intro l
  induction l with
  | nil => intro q _; rfl
  | cons x xs ih =>
    intro q hnd
    rw [List.nodup_cons] at hnd
    rw [removeFirst, List.filter_cons]
    rcases hxq : (x == q)
    · simp only [bne, hxq, Bool.not_false, if_true, Bool.false_eq_true, if_false]
      rw [ih q hnd.2]
      have hfg : ∀ a ∈ xs, (a != q) = (!(a == q)) := fun a _ => rfl
      rw [List.filter_congr hfg]
    · have hx : x = q := eq_of_beq hxq
      simp only [bne, hxq, Bool.not_true, if_true, Bool.false_eq_true, if_false]
      rw [List.filter_eq_self.mpr]
      intro a ha
      have haq : a ≠ q := fun haq => hnd.1 (by rw [hx, ← haq]; exact ha)
      simp [bne, haq]

theorem take_filter_take (p : Str → Bool) : ∀ (D : List Str) (m : Nat),
    (D.filter (fun x => !(p x))).length ≤ 1 →
    (List.filter p (D.take (m + 1))).take m = (D.filter p).take m := by
  intro D
  induction D with
  | nil => intro m _; rfl
  | cons d D2 ih =>
    intro m hcond
    rw [List.take_succ_cons, List.filter_cons, List.filter_cons]
    rcases hp : p d
    · have hfail : (List.filter (fun x => !(p x)) (d :: D2)).length ≤ 1 := hcond
      rw [List.filter_cons, hp] at hfail
      simp only [Bool.not_false, if_true] at hfail
      have hD2 : D2.filter (fun x => !(p x)) = [] := by
        rcases hfe : D2.filter (fun x => !(p x)) with _ | ⟨a, rest⟩
        · rfl
        · rw [hfe] at hfail; simp at hfail
      have hall : ∀ a ∈ D2, p a = true := by
        intro a ha
        have hnot := List.filter_eq_nil_iff.mp hD2 a ha
        simpa using hnot
      have hD2self : D2.filter p = D2 := List.filter_eq_self.mpr hall
      have htakeself : (D2.take m).filter p = D2.take m := by
        apply List.filter_eq_self.mpr
        intro a ha
        exact hall a ((List.take_sublist m D2).subset ha)
      simp only [Bool.false_eq_true, if_false]
      rw [htakeself, hD2self, List.take_take, Nat.min_self]
    · simp only [if_true]
      cases m with
      | zero => rfl
      | succ m2 =>
        rw [List.take_succ_cons, List.take_succ_cons]
        have hcond2 : (D2.filter (fun x => !(p x))).length ≤ 1 := by
          rw [List.filter_cons, hp] at hcond
          simpa using hcond
        rw [ih m2 hcond2]

/-- The addQuery step in characterized form: the history stays the capped
keep-first deduplication of the reversed effective additions. -/
theorem addQuery_spec_step (n : Nat) (r : List Str) (q : Str) :
    HistorySource.addQuery ⟨(dedupFirst r).take n, n⟩ q =
      ⟨(dedupFirst (pushEff r q)).take n, n⟩ := by
  unfold HistorySource.addQuery pushEff
  rcases hq : (trimSpace q == [])
  · simp only [hq, Bool.false_eq_true, if_false]
    have hnodup : ((dedupFirst r).take n).Nodup :=
      (List.take_sublist n (dedupFirst r)).nodup (dedupFirst_nodup r)
    rw [removeFirst_eq_filter _ _ hnodup]
    conv_rhs => rw [dedupFirst]
    have hcap : ∀ l : List Str, (if l.length > n then l.take n else l) = l.take n := by
      intro l
      split
      · rfl
      · rw [List.take_of_length_le (by omega)]
    rw [hcap]
    cases n with
    | zero => rfl
    | succ m =>
      rw [List.take_succ_cons, List.take_succ_cons]
      have hcount : ((dedupFirst r).filter (fun x => !(x != trimSpace q))).length ≤ 1 := by
        have hcongr : (dedupFirst r).filter (fun x => !(x != trimSpace q)) =
            (dedupFirst r).filter (fun x => x == trimSpace q) := by
          apply List.filter_congr
          intro a _
          simp [bne]
        rw [hcongr]
        exact filter_beq_len_le_one (trimSpace q) (dedupFirst r) (dedupFirst_nodup r)
      rw [take_filter_take (fun x => x != trimSpace q) (dedupFirst r) m hcount]
  · simp only [hq, if_true]

theorem foldl_pushEff_eq (qs : List Str) : ∀ acc : List Str,
    qs.foldl pushEff acc = (effAdds qs).reverse ++ acc := by
  induction qs with
  | nil => intro acc; simp [effAdds]
  | cons q qs ih =>
    intro acc
    rw [List.foldl_cons, ih]
    unfold effAdds pushEff
    rw [List.map_cons, List.filter_cons]
    rcases hq : (trimSpace q == [])
    · simp only [bne, hq, Bool.not_false, if_true, Bool.false_eq_true, if_false]
      rw [List.reverse_cons, List.append_assoc]
      rfl
    · simp only [bne, hq, Bool.not_true, Bool.false_eq_true, if_false, if_true]

theorem foldl_addQuery_spec (n : Nat) : ∀ (qs : List Str) (r : List Str),
    qs.foldl HistorySource.addQuery ⟨(dedupFirst r).take n, n⟩ =
      ⟨(dedupFirst (qs.foldl pushEff r)).take n, n⟩ := by
  intro qs
  induction qs with
  | nil => intro r; rfl
  | cons q qs ih =>
    intro r
    rw [List.foldl_cons, List.foldl_cons, addQuery_spec_step n r q, ih (pushEff r q)]

/- ===================== C5 ===================== -/

/-- C5: for every AddQuery call sequence on a fresh HistorySource (capacity
100), the history equals the first 100 entries of the keep-first
deduplication of the reversed effective (trimmed, non-empty) additions — that
is, it is most-recent-first, adding beyond capacity drops the oldest retained
entry — and consequently its length never exceeds 100 and no two entries have
equal text. -/
theorem c5_history_invariants (qs : List Str) :
    (qs.foldl HistorySource.addQuery newHistorySource).history =
      (dedupFirst (effAdds qs).reverse).take 100 ∧
    ((qs.foldl HistorySource.addQuery newHistorySource).history).length ≤ 100 ∧
    ((qs.foldl HistorySource.addQuery newHistorySource).history).Nodup := by
  have h0 : newHistorySource = (⟨(dedupFirst []).take 100, 100⟩ : HistorySource) := rfl
  have hchar : (qs.foldl HistorySource.addQuery newHistorySource).history =
      (dedupFirst (effAdds qs).reverse).take 100 := by
    rw [h0, foldl_addQuery_spec 100 qs []]
    rw [foldl_pushEff_eq qs [], List.append_nil]
  refine ⟨hchar, ?_, ?_⟩
  · rw [hchar]
    exact List.length_take_le 100 _
  · rw [hchar]
    exact (List.take_sublist 100 _).nodup (dedupFirst_nodup _)

end SqDesk
